import Mathlib

/-!
Verification of the `itemizer` crate (files `src/item.rs`, `src/itemizer.rs`).

Shallow embedding notes:
* `Item` embeds the Rust `Item` struct, a wrapper around a `u32` id.
  The id is modelled as a `Nat`; the `u32` range constraint is tracked by
  the reachable-state invariant (`next_item_id < 2^32`).
* `Itemizer` embeds the Rust `Itemizer<T>` struct.  The `FnvHashMap<T, Item>`
  is modelled as an association list looked up by key equality
  (`assocGet`); `HashMap::insert` of a key that is absent is modelled by
  consing the new binding.
* Rust panics are modelled by `Option.none`:
  - `value_of` uses the panicking `Vec` index `self.item_id_to_str[id.as_index()]`,
    so the embedding returns `none` exactly when the index is out of bounds;
  - `id_of` contains `assert_eq!(self.item_id_to_str.len(), (id + 1) as usize)`
    and the `u32` increment `self.next_item_id += 1`.  Arithmetic on the
    counter is modelled with an explicit `% 2^32` (release-mode wrapping);
    the assertion failure is modelled by returning `none`.  The debug-mode
    overflow panic of `+= 1` and the assertion failure fire at exactly the
    same call (the fresh insertion performed with `next_item_id = 2^32 - 1`),
    so `none` models the panic of either profile.
-/

/-- Embeds `Item` from `src/item.rs`: a struct wrapping a `u32` id. -/
structure Item where
  id : Nat
  deriving DecidableEq, Repr

/-- Embeds `Item::with_id`. -/
def Item.with_id (id : Nat) : Item := ⟨id⟩

/-- Embeds `Item::as_index`: returns the id as a `usize` index
(`u32 → usize` is lossless, so this is the identity on the id). -/
def Item.as_index (i : Item) : Nat := i.id

/-- Association-list lookup, modelling `FnvHashMap::get` by key equality. -/
def assocGet {T : Type} [DecidableEq T] : List (T × Item) → T → Option Item
  | [], _ => none
  | (k, v) :: rest, key => if k = key then some v else assocGet rest key

/-- Embeds the `Itemizer<T>` struct from `src/itemizer.rs`. -/
structure Itemizer (T : Type) where
  next_item_id : Nat
  item_str_to_id : List (T × Item)
  item_id_to_str : List T
  deriving DecidableEq

namespace Itemizer

variable {T : Type} [DecidableEq T]

/-- Embeds `Itemizer::new`. -/
def new : Itemizer T :=
  { next_item_id := 0, item_str_to_id := [], item_id_to_str := [] }

/-- Embeds `Itemizer::id_of`.  `none` models a panic: either the debug-mode
overflow of `self.next_item_id += 1` or the failure of
`assert_eq!(self.item_id_to_str.len(), (id + 1) as usize)`; both fire at the
same call, the fresh insertion done with `next_item_id = 2^32 - 1`. -/
def id_of (m : Itemizer T) (item : T) : Option (Item × Itemizer T) :=
  match assocGet m.item_str_to_id item with
  | some id => some (id, m)
  | none =>
    let id := m.next_item_id
    let m1 : Itemizer T :=
      { next_item_id := (id + 1) % 2 ^ 32
        item_str_to_id := (item, Item.with_id id) :: m.item_str_to_id
        item_id_to_str := m.item_id_to_str ++ [item] }
    if m1.item_id_to_str.length = (id + 1) % 2 ^ 32 then
      some (Item.with_id id, m1)
    else
      none

/-- Embeds `Itemizer::id_of_opt`. -/
def id_of_opt (m : Itemizer T) (item : T) : Option Item :=
  assocGet m.item_str_to_id item

/-- Embeds `Itemizer::value_of`; `none` models the panic of the
out-of-bounds `Vec` index. -/
def value_of (m : Itemizer T) (id : Item) : Option T :=
  m.item_id_to_str[id.as_index]?

/-- Embeds `Itemizer::len`. -/
def len (m : Itemizer T) : Nat := m.item_id_to_str.length

/-- Embeds `Itemizer::iter`: the iterator over `item_id_to_str` is modelled
by the underlying list. -/
def iter (m : Itemizer T) : List T := m.item_id_to_str

/-- Runs a sequence of `id_of` calls, propagating a panic as `none`.
`id_of` is the only mutating operation of the crate, so every reachable
`Itemizer` state arises this way. -/
def runInserts (m : Itemizer T) : List T → Option (Itemizer T)
  | [] => some m
  | v :: vs =>
    match id_of m v with
    | none => none
    | some (_, m1) => runInserts m1 vs

/-- The reachable states: those produced from `Itemizer::new` by a sequence
of completed `id_of` calls (the other operations do not mutate). -/
def Reachable (m : Itemizer T) : Prop :=
  ∃ vs : List T, runInserts new vs = some m

/-- The structural invariant of a state. -/
structure Inv (m : Itemizer T) : Prop where
  counter_eq : m.next_item_id = m.item_id_to_str.length
  size_lt : m.item_id_to_str.length < 2 ^ 32
  nodup : m.item_id_to_str.Nodup
  map_len : m.item_str_to_id.length = m.item_id_to_str.length
  keys_nodup : (m.item_str_to_id.map Prod.fst).Nodup
  get_iff : ∀ (v : T) (i : Item),
    assocGet m.item_str_to_id v = some i ↔ m.item_id_to_str[i.id]? = some v

end Itemizer

namespace Itemizer

variable {T : Type} [DecidableEq T]

lemma two_pow_32 : (2 : ℕ) ^ 32 = 4294967296 := by norm_num

lemma assocGet_eq_none_iff {l : List (T × Item)} {k : T} :
    assocGet l k = none ↔ k ∉ l.map Prod.fst := by
  induction l with
  | nil => simp [assocGet]
  | cons p rest ih =>
    obtain ⟨a, b⟩ := p
    simp only [assocGet, List.map_cons, List.mem_cons, not_or]
    by_cases h : a = k
    · subst h
      simp
    · rw [if_neg h, ih]
      have hka : ¬k = a := fun hh => h hh.symm
      tauto

lemma inv_new : Inv (new (T := T)) := by
  constructor <;> simp [new, assocGet]

lemma not_mem_of_assocGet_none {m : Itemizer T} (hm : Inv m) {v : T}
    (hv : assocGet m.item_str_to_id v = none) : v ∉ m.item_id_to_str := by
  intro hmem
  obtain ⟨n, hn⟩ := List.mem_iff_getElem?.mp hmem
  have := (hm.get_iff v ⟨n⟩).mpr hn
  rw [hv] at this
  exact Option.noConfusion this

/-- Full characterization of a completed `id_of` call on a state satisfying
the invariant: either the value was present (hit branch, no mutation), or it
was absent and within capacity (fresh insertion with the explicit new state). -/
lemma id_of_some_cases {m m1 : Itemizer T} {v : T} {i : Item} (hm : Inv m)
    (h : id_of m v = some (i, m1)) :
    (assocGet m.item_str_to_id v = some i ∧ m1 = m) ∨
    (assocGet m.item_str_to_id v = none ∧ i = Item.with_id m.item_id_to_str.length ∧
      m.item_id_to_str.length + 1 < 2 ^ 32 ∧
      m1 = { next_item_id := m.item_id_to_str.length + 1,
             item_str_to_id := (v, Item.with_id m.item_id_to_str.length) :: m.item_str_to_id,
             item_id_to_str := m.item_id_to_str ++ [v] }) := by
  unfold id_of at h
  rcases hv : assocGet m.item_str_to_id v with _ | j
  · rw [hv] at h
    simp only [List.length_append, List.length_cons, List.length_nil, Nat.zero_add] at h
    split at h
    · rename_i hguard
      have hcap : m.item_id_to_str.length + 1 < 2 ^ 32 := by
        rw [hm.counter_eq] at hguard
        calc m.item_id_to_str.length + 1
            = (m.item_id_to_str.length + 1) % 2 ^ 32 := hguard
          _ < 2 ^ 32 := Nat.mod_lt _ (by norm_num)
      have hmod : (m.next_item_id + 1) % 2 ^ 32 = m.item_id_to_str.length + 1 := by
        rw [hm.counter_eq, Nat.mod_eq_of_lt hcap]
      simp only [Option.some.injEq, Prod.mk.injEq] at h
      refine Or.inr ⟨rfl, ?_, hcap, ?_⟩
      · rw [← h.1, Item.with_id, Item.with_id, hm.counter_eq]
      · rw [← h.2, hmod, hm.counter_eq]
    · exact Option.noConfusion h
  · rw [hv] at h
    simp only [Option.some.injEq, Prod.mk.injEq] at h
    refine Or.inl ⟨?_, h.2.symm⟩
    rw [h.1]

/-- A completed fresh insertion: the explicit result under the invariant. -/
lemma id_of_fresh_eq {m : Itemizer T} {v : T} (hm : Inv m)
    (hv : assocGet m.item_str_to_id v = none)
    (hcap : m.item_id_to_str.length + 1 < 2 ^ 32) :
    id_of m v = some (Item.with_id m.item_id_to_str.length,
      { next_item_id := m.item_id_to_str.length + 1,
        item_str_to_id := (v, Item.with_id m.item_id_to_str.length) :: m.item_str_to_id,
        item_id_to_str := m.item_id_to_str ++ [v] }) := by
  have hmod : (m.next_item_id + 1) % 2 ^ 32 = m.item_id_to_str.length + 1 := by
    rw [hm.counter_eq, Nat.mod_eq_of_lt hcap]
  unfold id_of
  rw [hv]
  simp only [hm.counter_eq, Nat.mod_eq_of_lt hcap, List.length_append, List.length_cons,
    List.length_nil, Nat.zero_add]
  simp

/-- `id_of` preserves the structural invariant. -/
lemma inv_id_of {m m1 : Itemizer T} {v : T} {i : Item} (hm : Inv m)
    (h : id_of m v = some (i, m1)) : Inv m1 := by
  rcases id_of_some_cases hm h with ⟨_, rfl⟩ | ⟨hv, hi, hcap, rfl⟩
  · exact hm
  · have hnotmem : v ∉ m.item_id_to_str := not_mem_of_assocGet_none hm hv
    have hkeys : v ∉ m.item_str_to_id.map Prod.fst := assocGet_eq_none_iff.mp hv
    constructor
    · simp
    · simpa using hcap
    · simp [List.nodup_append, hm.nodup, hnotmem]
    · simp [hm.map_len]
    · simp [List.nodup_cons, hkeys, hm.keys_nodup]
    · intro w j
      simp only [assocGet]
      by_cases hvw : v = w
      · subst hvw
        rw [if_pos rfl]
        constructor
        · intro hh
          injection hh with hh
          rw [← hh]
          exact List.getElem?_concat_length _ _
        · intro hh
          rcases Nat.lt_or_ge j.id m.item_id_to_str.length with hlt | hge
          · rw [List.getElem?_append_left hlt] at hh
            exact absurd (List.getElem?_mem hh) hnotmem
          · rw [List.getElem?_append_right hge] at hh
            have hj0 : j.id - m.item_id_to_str.length = 0 := by
              rcases hk : j.id - m.item_id_to_str.length with _ | k
              · rfl
              · rw [hk] at hh
                simp at hh
            have hj : j.id = m.item_id_to_str.length := by omega
            rcases j with ⟨jid⟩
            simp only [Item.with_id]
            rw [show jid = m.item_id_to_str.length from hj]
      · rw [if_neg hvw, hm.get_iff w j]
        rcases Nat.lt_or_ge j.id m.item_id_to_str.length with hlt | hge
        · rw [List.getElem?_append_left hlt]
        · rw [List.getElem?_append_right hge, List.getElem?_eq_none hge]
          constructor
          · intro hh
            exact Option.noConfusion hh
          · intro hh
            exfalso
            rcases hk : j.id - m.item_id_to_str.length with _ | k
            · rw [hk] at hh
              simp only [List.getElem?_cons_zero, Option.some.injEq] at hh
              exact hvw hh
            · rw [hk] at hh
              simp at hh

/-- `runInserts` preserves the structural invariant. -/
lemma inv_runInserts {vs : List T} : ∀ {m m1 : Itemizer T}, Inv m →
    runInserts m vs = some m1 → Inv m1 := by
  induction vs with
  | nil =>
    intro m m1 hm h
    simp only [runInserts, Option.some.injEq] at h
    exact h ▸ hm
  | cons v vs ih =>
    intro m m1 hm h
    simp only [runInserts] at h
    cases hid : id_of m v with
    | none => rw [hid] at h; exact Option.noConfusion h
    | some p =>
      rw [hid] at h
      exact ih (inv_id_of hm hid) h

/-- Every reachable state satisfies the structural invariant. -/
lemma inv_reachable {m : Itemizer T} (hm : Reachable m) : Inv m := by
  obtain ⟨vs, hvs⟩ := hm
  exact inv_runInserts inv_new hvs

/-- After a completed `id_of m v = (i, m1)`, the forward map of `m1` binds
`v` to `i` (both in the hit branch and after a fresh insertion). -/
lemma id_of_assocGet_post {m m1 : Itemizer T} {v : T} {i : Item} (hm : Inv m)
    (h : id_of m v = some (i, m1)) : assocGet m1.item_str_to_id v = some i := by
  rcases id_of_some_cases hm h with ⟨hv, rfl⟩ | ⟨hv, hi, hcap, rfl⟩
  · exact hv
  · simp [assocGet, hi]

/-- A completed `id_of` call never disturbs an existing forward-map binding. -/
lemma assocGet_mono_id_of {m m1 : Itemizer T} {w v : T} {x i : Item} (hm : Inv m)
    (h : id_of m w = some (x, m1)) (hv : assocGet m.item_str_to_id v = some i) :
    assocGet m1.item_str_to_id v = some i := by
  rcases id_of_some_cases hm h with ⟨_, rfl⟩ | ⟨hw, hi, hcap, rfl⟩
  · exact hv
  · have hne : w ≠ v := by
      intro hwv
      rw [hwv, hv] at hw
      exact Option.noConfusion hw
    simpa [assocGet, hne] using hv

/-- A completed sequence of `id_of` calls never disturbs an existing
forward-map binding. -/
lemma assocGet_mono_run {vs : List T} : ∀ {m m1 : Itemizer T} {v : T} {i : Item}, Inv m →
    runInserts m vs = some m1 → assocGet m.item_str_to_id v = some i →
    assocGet m1.item_str_to_id v = some i := by
  induction vs with
  | nil =>
    intro m m1 v i hm h hv
    simp only [runInserts, Option.some.injEq] at h
    exact h ▸ hv
  | cons w vs ih =>
    intro m m1 v i hm h hv
    simp only [runInserts] at h
    cases hid : id_of m w with
    | none => rw [hid] at h; exact Option.noConfusion h
    | some p =>
      rw [hid] at h
      exact ih (inv_id_of hm hid) h (assocGet_mono_id_of hm hid hv)

/-- Under the invariant, a value is stored in the reverse sequence iff the
forward map binds it. -/
lemma mem_iff_assocGet_some {m : Itemizer T} (hm : Inv m) (v : T) :
    v ∈ m.item_id_to_str ↔ ∃ i, assocGet m.item_str_to_id v = some i := by
  constructor
  · intro hmem
    obtain ⟨n, hn⟩ := List.mem_iff_getElem?.mp hmem
    exact ⟨⟨n⟩, (hm.get_iff v ⟨n⟩).mpr hn⟩
  · rintro ⟨i, hi⟩
    exact List.getElem?_mem ((hm.get_iff v i).mp hi)

/-- A hit in the forward map makes `id_of` return that binding unchanged. -/
lemma id_of_found {m : Itemizer T} {v : T} {i : Item}
    (hv : assocGet m.item_str_to_id v = some i) : id_of m v = some (i, m) := by
  unfold id_of
  rw [hv]

/-- Appending elements cannot decrease the number of distinct elements. -/
lemma dedup_length_mono {l1 l2 : List T} (h : l1 ⊆ l2) :
    l1.dedup.length ≤ l2.dedup.length := by
  have hsub : l1.dedup ⊆ l2.dedup := fun a ha =>
    List.mem_dedup.mpr (h (List.mem_dedup.mp ha))
  exact (List.subperm_of_subset (List.nodup_dedup l1) hsub).length_le

/-- An insertion run completes (no overflow panic, every internal assertion
passes) as long as the total number of distinct values stays below `2^32`. -/
lemma runInserts_total : ∀ (vs : List T) (m : Itemizer T), Inv m →
    (m.item_id_to_str ++ vs).dedup.length < 2 ^ 32 →
    ∃ m1, runInserts m vs = some m1 ∧ Inv m1 := by
  intro vs
  induction vs with
  | nil =>
    intro m hm _
    exact ⟨m, rfl, hm⟩
  | cons v vs ih =>
    intro m hm hcap
    cases hv : assocGet m.item_str_to_id v with
    | some i =>
      have hstep := id_of_found hv
      have hsub : (m.item_id_to_str ++ vs) ⊆ (m.item_id_to_str ++ v :: vs) := by
        intro a ha
        simp only [List.mem_append, List.mem_cons] at ha ⊢
        tauto
      obtain ⟨m1, h1, h2⟩ := ih m hm (lt_of_le_of_lt (dedup_length_mono hsub) hcap)
      refine ⟨m1, ?_, h2⟩
      simp only [runInserts, hstep]
      exact h1
    | none =>
      have hnotmem := not_mem_of_assocGet_none hm hv
      have hsub : (m.item_id_to_str ++ [v]) ⊆ (m.item_id_to_str ++ v :: vs) := by
        intro a ha
        simp only [List.mem_append, List.mem_singleton, List.mem_cons] at ha ⊢
        tauto
      have hnd : (m.item_id_to_str ++ [v]).Nodup := by
        simp [List.nodup_append, hm.nodup, hnotmem]
      have hcap1 : m.item_id_to_str.length + 1 < 2 ^ 32 := by
        have := lt_of_le_of_lt (dedup_length_mono hsub) hcap
        rw [hnd.dedup] at this
        simpa using this
      have hstep := id_of_fresh_eq hm hv hcap1
      obtain ⟨m1, h1, h2⟩ := ih _ (inv_id_of hm hstep) (by
        show ((m.item_id_to_str ++ [v]) ++ vs).dedup.length < 2 ^ 32
        rw [List.append_assoc, List.singleton_append]
        exact hcap)
      refine ⟨m1, ?_, h2⟩
      simp only [runInserts, hstep]
      exact h1

/-- C1: Round-trip — for every value `v` that `id_of` has assigned Identifier
`i` (in any reachable state), `value_of` applied to `i` returns exactly `v`,
and this holds after any further sequence of operations (`id_of` being the
only mutating operation). -/
theorem round_trip {m m1 m2 : Itemizer T} {v : T} {i : Item}
    (hm : Reachable m) (h : id_of m v = some (i, m1))
    (vs : List T) (h2 : runInserts m1 vs = some m2) :
    value_of m2 i = some v := by
  have hinv := inv_reachable hm
  have hinv1 := inv_id_of hinv h
  have hpost := id_of_assocGet_post hinv h
  have hpost2 := assocGet_mono_run hinv1 h2 hpost
  have hget := ((inv_runInserts hinv1 h2).get_iff v i).mp hpost2
  simpa [value_of, Item.as_index] using hget

/-- C2: Structural invariant — after every operation completes, the length of
the reverse sequence `item_id_to_str`, the counter `next_item_id` and the size
of the forward map `item_str_to_id` coincide.  Reachable states are exactly
the results of completed `new`/`id_of` calls; `id_of_opt`, `value_of`, `len`
and `iter` are read-only functions of the state in this embedding, so they
trivially preserve it. -/
theorem structural_invariant {m : Itemizer T} (hm : Reachable m) :
    m.item_id_to_str.length = m.next_item_id ∧
    m.next_item_id = m.item_str_to_id.length := by
  have hinv := inv_reachable hm
  exact ⟨hinv.counter_eq.symm, by rw [hinv.counter_eq, hinv.map_len]⟩

/-- C3: Dense sequential assignment — a completed `id_of` call on a value not
yet present returns the Identifier whose index is the `len` held immediately
before the call, and `len` grows by exactly one. -/
theorem dense_assignment {m m1 : Itemizer T} {v : T} {i : Item}
    (hm : Reachable m) (hnew : id_of_opt m v = none)
    (h : id_of m v = some (i, m1)) :
    i.as_index = m.len ∧ m1.len = m.len + 1 := by
  have hinv := inv_reachable hm
  rcases id_of_some_cases hinv h with ⟨hv, rfl⟩ | ⟨hv, hi, hcap, rfl⟩
  · simp only [id_of_opt] at hnew
    rw [hnew] at hv
    exact Option.noConfusion hv
  · subst hi
    exact ⟨rfl, by simp [len]⟩

/-- C4: Idempotence of `id_of` — a second call with the same value returns the
same Identifier and the unchanged state (so `len` grows by 0 on the second
call), while the first call grows `len` by 1 exactly when the value was new
and by 0 when it was already present. -/
theorem idempotent_id_of {m m1 : Itemizer T} {v : T} {i : Item}
    (hm : Reachable m) (h : id_of m v = some (i, m1)) :
    id_of m1 v = some (i, m1) ∧
    (id_of_opt m v = none → m1.len = m.len + 1) ∧
    (id_of_opt m v ≠ none → m1.len = m.len) := by
  have hinv := inv_reachable hm
  refine ⟨id_of_found (id_of_assocGet_post hinv h), ?_, ?_⟩ <;>
    rcases id_of_some_cases hinv h with ⟨hv, rfl⟩ | ⟨hv, hi, hcap, rfl⟩
  · intro hnew
    simp only [id_of_opt] at hnew
    rw [hnew] at hv
    exact Option.noConfusion hv
  · intro _
    simp [len]
  · intro _
    rfl
  · intro hne
    exact absurd hv hne

/-- C5: `id_of_opt` returns `some i` exactly when the value has previously
been interned, with `i` the Identifier stored for it (so a subsequent `id_of`
returns the same `i` without mutation), and `none` otherwise; it is a pure
function of the state, so it never mutates it. -/
theorem lookup_correct {m : Itemizer T} (hm : Reachable m) (v : T) :
    (id_of_opt m v = none ↔ v ∉ m.item_id_to_str) ∧
    (∀ i : Item, id_of_opt m v = some i ↔ m.item_id_to_str[i.as_index]? = some v) ∧
    (∀ i : Item, id_of_opt m v = some i → id_of m v = some (i, m)) := by
  have hinv := inv_reachable hm
  refine ⟨⟨fun hnone => not_mem_of_assocGet_none hinv hnone, ?_⟩,
    fun i => hinv.get_iff v i, fun i hi => id_of_found hi⟩
  intro hnm
  cases hv : assocGet m.item_str_to_id v with
  | none => simp only [id_of_opt, hv]
  | some i => exact absurd ((mem_iff_assocGet_some hinv v).mpr ⟨i, hv⟩) hnm

/-- C6: Order preservation — `iter` yields exactly the interned values, each
once, and the value at position `n` is precisely the one holding Identifier
`n`, i.e. values appear in strictly increasing Identifier order (first-seen
order); the length of the iteration equals `len`. -/
theorem iter_order {m : Itemizer T} (hm : Reachable m) :
    m.iter.length = m.len ∧ m.iter.Nodup ∧
    (∀ (n : Nat) (v : T), m.iter[n]? = some v → id_of_opt m v = some (Item.with_id n)) ∧
    (∀ v : T, v ∈ m.iter ↔ id_of_opt m v ≠ none) := by
  have hinv := inv_reachable hm
  refine ⟨rfl, hinv.nodup, fun n v hn => (hinv.get_iff v ⟨n⟩).mpr hn, fun v => ⟨?_, ?_⟩⟩
  · intro hmem
    obtain ⟨i, hi⟩ := (mem_iff_assocGet_some hinv v).mp hmem
    simp [id_of_opt, hi]
  · intro hne
    rcases ho : id_of_opt m v with _ | i
    · exact absurd ho hne
    · exact (mem_iff_assocGet_some hinv v).mpr ⟨i, ho⟩

/-- C7: Distinctness — two completed `id_of` calls on unequal values, the
second from the state produced by the first, return unequal Identifiers. -/
theorem distinct_ids {m m1 m2 : Itemizer T} {v1 v2 : T} {i1 i2 : Item}
    (hm : Reachable m) (hne : v1 ≠ v2)
    (h1 : id_of m v1 = some (i1, m1)) (h2 : id_of m1 v2 = some (i2, m2)) :
    i1 ≠ i2 := by
  have hinv := inv_reachable hm
  have hinv1 := inv_id_of hinv h1
  have hg1 : m1.item_id_to_str[i1.id]? = some v1 :=
    (hinv1.get_iff v1 i1).mp (id_of_assocGet_post hinv h1)
  intro heq
  subst heq
  rcases id_of_some_cases hinv1 h2 with ⟨hv, _⟩ | ⟨hv, hi, hcap, _⟩
  · have hg2 := (hinv1.get_iff v2 i1).mp hv
    rw [hg1] at hg2
    injection hg2 with hg2
    exact hne hg2
  · have hlt : i1.id < m1.item_id_to_str.length := by
      by_contra hge
      rw [List.getElem?_eq_none (Nat.le_of_not_lt hge)] at hg1
      exact Option.noConfusion hg1
    have hid : i1.id = m1.item_id_to_str.length := by rw [hi]; rfl
    rw [hid] at hlt
    exact lt_irrefl _ hlt

omit [DecidableEq T] in
/-- C8: Safety of `value_of` under its precondition — for every Identifier
whose index lies in `[0, len)`, `value_of` returns the stored value; the
out-of-bounds branch of the `Vec` index is unreachable. -/
theorem resolve_safe {m : Itemizer T} {i : Item} (h : i.as_index < m.len) :
    ∃ v : T, value_of m i = some v := by
  rcases ho : m.item_id_to_str[i.as_index]? with _ | v
  · rw [List.getElem?_eq_none_iff] at ho
    exact absurd h (Nat.not_lt.mpr ho)
  · exact ⟨v, ho⟩

omit [DecidableEq T] in
/-- C9 (implicit): `value_of` on an Identifier whose index is `≥ len` is the
bounds-checked failure of the `Vec` index, modelled by `none` — it is
deterministic, never silently yields a value, and, being a pure function of
the state, never mutates it. -/
theorem resolve_out_of_bounds {m : Itemizer T} {i : Item} (h : m.len ≤ i.as_index) :
    value_of m i = none :=
  List.getElem?_eq_none h

/-- C10 (implicit): the counter `next_item_id` is a 32-bit unsigned integer;
whenever fewer than `2^32` distinct values are interned, no `id_of` call in
the run panics — the `u32` increment stays below `2^32` (no overflow) and the
internal assertion `item_id_to_str.len() == id + 1` passes after every fresh
insertion (a failure of either is modelled by `runInserts` returning `none`)
— and the final counter equals the number of interned values. -/
theorem counter_u32_no_overflow (vs : List T) (hcap : vs.dedup.length < 2 ^ 32) :
    ∃ m : Itemizer T, runInserts new vs = some m ∧
      m.next_item_id < 2 ^ 32 ∧ m.next_item_id = m.item_id_to_str.length := by
  obtain ⟨m, h1, h2⟩ := runInserts_total vs new inv_new (by simpa [new] using hcap)
  exact ⟨m, h1, by rw [h2.counter_eq]; exact h2.size_lt, h2.counter_eq⟩

end Itemizer

section Sanity

example : Itemizer.id_of (T := String) Itemizer.new "item1" =
    some (Item.with_id 0,
      { next_item_id := 1, item_str_to_id := [("item1", Item.with_id 0)],
        item_id_to_str := ["item1"] }) := by decide

example :
    Itemizer.runInserts (T := String) Itemizer.new ["item1", "item2", "item1"] =
    some
      { next_item_id := 2,
        item_str_to_id := [("item2", Item.with_id 1), ("item1", Item.with_id 0)],
        item_id_to_str := ["item1", "item2"] } := by decide

example :
    Itemizer.value_of (T := String)
      { next_item_id := 2,
        item_str_to_id := [("item2", Item.with_id 1), ("item1", Item.with_id 0)],
        item_id_to_str := ["item1", "item2"] } (Item.with_id 1) = some "item2" := by decide

end Sanity

/-- Witness for C1 at a concrete input: intern `"item1"` into the empty
interner, then `"item2"`, and resolve Identifier 0 back to `"item1"`. -/
theorem round_trip_witness :
    Itemizer.value_of (T := String)
      { next_item_id := 2,
        item_str_to_id := [("item2", Item.with_id 1), ("item1", Item.with_id 0)],
        item_id_to_str := ["item1", "item2"] } (Item.with_id 0) = some "item1" :=
  @Itemizer.round_trip String _ Itemizer.new
    { next_item_id := 1, item_str_to_id := [("item1", Item.with_id 0)],
      item_id_to_str := ["item1"] }
    { next_item_id := 2,
      item_str_to_id := [("item2", Item.with_id 1), ("item1", Item.with_id 0)],
      item_id_to_str := ["item1", "item2"] }
    "item1" (Item.with_id 0)
    ⟨[], rfl⟩ (by decide) ["item2"] (by decide)

/-- Witness for C2 at a concrete reachable state (after interning `"item1"`). -/
theorem structural_invariant_witness :
    ({ next_item_id := 1, item_str_to_id := [("item1", Item.with_id 0)],
       item_id_to_str := ["item1"] } : Itemizer String).item_id_to_str.length =
      ({ next_item_id := 1, item_str_to_id := [("item1", Item.with_id 0)],
         item_id_to_str := ["item1"] } : Itemizer String).next_item_id ∧
    ({ next_item_id := 1, item_str_to_id := [("item1", Item.with_id 0)],
       item_id_to_str := ["item1"] } : Itemizer String).next_item_id =
      ({ next_item_id := 1, item_str_to_id := [("item1", Item.with_id 0)],
         item_id_to_str := ["item1"] } : Itemizer String).item_str_to_id.length :=
  Itemizer.structural_invariant ⟨["item1"], by decide⟩

/-- Witness for C3 at a concrete input: interning the fresh value `"item2"`
after `"item1"` assigns index 1 = len-before and bumps len to 2. -/
theorem dense_assignment_witness :
    (Item.with_id 1).as_index =
      ({ next_item_id := 1, item_str_to_id := [("item1", Item.with_id 0)],
         item_id_to_str := ["item1"] } : Itemizer String).len ∧
    ({ next_item_id := 2,
       item_str_to_id := [("item2", Item.with_id 1), ("item1", Item.with_id 0)],
       item_id_to_str := ["item1", "item2"] } : Itemizer String).len =
      ({ next_item_id := 1, item_str_to_id := [("item1", Item.with_id 0)],
         item_id_to_str := ["item1"] } : Itemizer String).len + 1 :=
  Itemizer.dense_assignment (v := "item2") (i := Item.with_id 1)
    ⟨["item1"], by decide⟩ (by decide) (by decide)

/-- Witness for C4 at a concrete input: interning `"item1"` into the empty
interner and then again. -/
theorem idempotent_id_of_witness :
    Itemizer.id_of (T := String)
      { next_item_id := 1, item_str_to_id := [("item1", Item.with_id 0)],
        item_id_to_str := ["item1"] } "item1" =
      some (Item.with_id 0,
        { next_item_id := 1, item_str_to_id := [("item1", Item.with_id 0)],
          item_id_to_str := ["item1"] }) ∧
    (Itemizer.id_of_opt (T := String) Itemizer.new "item1" = none →
      ({ next_item_id := 1, item_str_to_id := [("item1", Item.with_id 0)],
         item_id_to_str := ["item1"] } : Itemizer String).len =
        (Itemizer.new : Itemizer String).len + 1) ∧
    (Itemizer.id_of_opt (T := String) Itemizer.new "item1" ≠ none →
      ({ next_item_id := 1, item_str_to_id := [("item1", Item.with_id 0)],
         item_id_to_str := ["item1"] } : Itemizer String).len =
        (Itemizer.new : Itemizer String).len) :=
  Itemizer.idempotent_id_of (m := Itemizer.new) (v := "item1") ⟨[], rfl⟩ (by decide)

/-- Witness for C5 at a concrete input: looking up `"item1"` in the state
where only `"item1"` is interned. -/
theorem lookup_correct_witness :
    (Itemizer.id_of_opt (T := String)
        { next_item_id := 1, item_str_to_id := [("item1", Item.with_id 0)],
          item_id_to_str := ["item1"] } "item1" = none ↔
      "item1" ∉ ({ next_item_id := 1, item_str_to_id := [("item1", Item.with_id 0)],
                   item_id_to_str := ["item1"] } : Itemizer String).item_id_to_str) ∧
    (∀ i : Item,
      Itemizer.id_of_opt (T := String)
          { next_item_id := 1, item_str_to_id := [("item1", Item.with_id 0)],
            item_id_to_str := ["item1"] } "item1" = some i ↔
        ({ next_item_id := 1, item_str_to_id := [("item1", Item.with_id 0)],
           item_id_to_str := ["item1"] } : Itemizer String).item_id_to_str[i.as_index]? =
          some "item1") ∧
    (∀ i : Item,
      Itemizer.id_of_opt (T := String)
          { next_item_id := 1, item_str_to_id := [("item1", Item.with_id 0)],
            item_id_to_str := ["item1"] } "item1" = some i →
        Itemizer.id_of (T := String)
            { next_item_id := 1, item_str_to_id := [("item1", Item.with_id 0)],
              item_id_to_str := ["item1"] } "item1" =
          some (i, { next_item_id := 1, item_str_to_id := [("item1", Item.with_id 0)],
                     item_id_to_str := ["item1"] })) :=
  Itemizer.lookup_correct ⟨["item1"], by decide⟩ "item1"

/-- Witness for C6 at a concrete reachable state with two interned values. -/
theorem iter_order_witness :
    ({ next_item_id := 2,
       item_str_to_id := [("item2", Item.with_id 1), ("item1", Item.with_id 0)],
       item_id_to_str := ["item1", "item2"] } : Itemizer String).iter.length =
      ({ next_item_id := 2,
         item_str_to_id := [("item2", Item.with_id 1), ("item1", Item.with_id 0)],
         item_id_to_str := ["item1", "item2"] } : Itemizer String).len ∧
    ({ next_item_id := 2,
       item_str_to_id := [("item2", Item.with_id 1), ("item1", Item.with_id 0)],
       item_id_to_str := ["item1", "item2"] } : Itemizer String).iter.Nodup ∧
    (∀ (n : Nat) (v : String),
      ({ next_item_id := 2,
         item_str_to_id := [("item2", Item.with_id 1), ("item1", Item.with_id 0)],
         item_id_to_str := ["item1", "item2"] } : Itemizer String).iter[n]? = some v →
      Itemizer.id_of_opt
          { next_item_id := 2,
            item_str_to_id := [("item2", Item.with_id 1), ("item1", Item.with_id 0)],
            item_id_to_str := ["item1", "item2"] } v = some (Item.with_id n)) ∧
    (∀ v : String,
      v ∈ ({ next_item_id := 2,
             item_str_to_id := [("item2", Item.with_id 1), ("item1", Item.with_id 0)],
             item_id_to_str := ["item1", "item2"] } : Itemizer String).iter ↔
      Itemizer.id_of_opt
          { next_item_id := 2,
            item_str_to_id := [("item2", Item.with_id 1), ("item1", Item.with_id 0)],
            item_id_to_str := ["item1", "item2"] } v ≠ none) :=
  Itemizer.iter_order ⟨["item1", "item2"], by decide⟩

/-- Witness for C7 at a concrete input: interning `"item1"` then `"item2"`
from the empty interner yields Identifiers 0 and 1, which differ. -/
theorem distinct_ids_witness : Item.with_id 0 ≠ Item.with_id 1 :=
  @Itemizer.distinct_ids String _ Itemizer.new
    { next_item_id := 1, item_str_to_id := [("item1", Item.with_id 0)],
      item_id_to_str := ["item1"] }
    { next_item_id := 2,
      item_str_to_id := [("item2", Item.with_id 1), ("item1", Item.with_id 0)],
      item_id_to_str := ["item1", "item2"] }
    "item1" "item2" (Item.with_id 0) (Item.with_id 1)
    ⟨[], rfl⟩ (by decide) (by decide) (by decide)

/-- Witness for C8 at a concrete input: index 0 is in range for a
one-element interner, so `value_of` succeeds. -/
theorem resolve_safe_witness :
    ∃ v : String,
      Itemizer.value_of
        { next_item_id := 1, item_str_to_id := [("item1", Item.with_id 0)],
          item_id_to_str := ["item1"] } (Item.with_id 0) = some v :=
  Itemizer.resolve_safe (by decide)

/-- Witness for C9 at a concrete input: index 5 is out of range for a
one-element interner, so `value_of` fails. -/
theorem resolve_out_of_bounds_witness :
    Itemizer.value_of
      { next_item_id := 1, item_str_to_id := [("item1", Item.with_id 0)],
        item_id_to_str := ["item1"] } (Item.with_id 5) = none :=
  Itemizer.resolve_out_of_bounds (by decide)

/-- Witness for C10 at a concrete input: a run over three values with two
distinct ones completes without a panic. -/
theorem counter_u32_no_overflow_witness :
    ∃ m : Itemizer String,
      Itemizer.runInserts Itemizer.new ["item1", "item2", "item1"] = some m ∧
      m.next_item_id < 2 ^ 32 ∧ m.next_item_id = m.item_id_to_str.length :=
  Itemizer.counter_u32_no_overflow ["item1", "item2", "item1"] (by decide)
